import Mathlib

/-!
Shallow embedding of the playsoundrs audio application (src/main.rs).

Floating point samples are modelled as rationals (exact arithmetic), the
StdRng random number generator as an infinite stream of already generated
uniform draws together with the position of the next draw, and the u32
sample counter as a natural number kept below 2 ^ 32 by taking the
remainder on every increment (wrapping_add).
-/

/-- PINK_NOISE_ROWS constant from src/main.rs. -/
abbrev PINK_NOISE_ROWS : ℕ := 16

/-- Model of StdRng: the stream of uniform draws that gen_range(-1.0..=1.0)
will return, together with the position of the next draw. -/
structure StdRngQ where
  stream : ℕ → ℚ
  pos : ℕ

/-- rng.gen_range(-1.0..=1.0): return the draw at the current position and
advance the generator. -/
def StdRngQ.genRange (r : StdRngQ) : ℚ × StdRngQ :=
  (r.stream r.pos, ⟨r.stream, r.pos + 1⟩)

/-- WhiteNoise generator state (src/main.rs, struct WhiteNoise). -/
structure WhiteNoise where
  rng : StdRngQ

/-- WhiteNoise::next: one independent uniform draw per sample. -/
def WhiteNoise.next (w : WhiteNoise) : ℚ × WhiteNoise :=
  let d := w.rng.genRange
  (d.1, ⟨d.2⟩)

/-- Number of trailing zero bits, by repeated division; fuel bounds the
recursion depth. -/
def tzAux : ℕ → ℕ → ℕ
  | 0, _ => 0
  | fuel + 1, n => if n % 2 = 1 then 0 else tzAux fuel (n / 2) + 1

/-- u32::trailing_zeros: 32 on input 0, otherwise the 2-adic valuation of
the (already reduced mod 2 ^ 32) input. -/
def u32TrailingZeros (n : ℕ) : ℕ :=
  if n = 0 then 32 else tzAux 32 n

/-- PinkNoise generator state (src/main.rs, struct PinkNoise). -/
structure PinkNoise where
  rng : StdRngQ
  rows : Fin PINK_NOISE_ROWS → ℚ
  running_sum : ℚ
  counter : ℕ

/-- PinkNoise::new: draw one uniform value per row, accumulate the running
sum over the rows, start the counter at 0; 16 draws are consumed. -/
def PinkNoise.new (stream : ℕ → ℚ) : PinkNoise :=
  { rng := ⟨stream, PINK_NOISE_ROWS⟩
    rows := fun i => stream (i : ℕ)
    running_sum := ∑ i : Fin PINK_NOISE_ROWS, stream (i : ℕ)
    counter := 0 }

/-- PinkNoise::next (Iterator impl): increment the counter with wrapping,
update the row selected by the trailing-zero count when it is in range
(delta-adjusting the running sum), then emit
(running_sum + fresh white draw) / (PINK_NOISE_ROWS + 1). -/
def PinkNoise.next (s : PinkNoise) : ℚ × PinkNoise :=
  let counter := (s.counter + 1) % 2 ^ 32
  let zeros := u32TrailingZeros counter
  if h : zeros < PINK_NOISE_ROWS then
    let d := s.rng.genRange
    let rows := Function.update s.rows ⟨zeros, h⟩ d.1
    let running_sum := s.running_sum - s.rows ⟨zeros, h⟩ + d.1
    let w := d.2.genRange
    ((running_sum + w.1) / ((PINK_NOISE_ROWS : ℚ) + 1),
      ⟨w.2, rows, running_sum, counter⟩)
  else
    let w := s.rng.genRange
    ((s.running_sum + w.1) / ((PINK_NOISE_ROWS : ℚ) + 1),
      ⟨w.2, s.rows, s.running_sum, counter⟩)

/-- The pink noise state after n calls to next(), starting from new(). -/
def pinkState (stream : ℕ → ℚ) : ℕ → PinkNoise
  | 0 => PinkNoise.new stream
  | n + 1 => ((pinkState stream n).next).2

/-- The sample emitted by the (n+1)-st call to next(). -/
def pinkSample (stream : ℕ → ℚ) (n : ℕ) : ℚ :=
  ((pinkState stream n).next).1

/-- The row that the upcoming call to next() will rewrite, if any: the
index given by the trailing-zero count of the incremented counter, when it
is below PINK_NOISE_ROWS. -/
def PinkNoise.updateIndex (s : PinkNoise) : Option (Fin PINK_NOISE_ROWS) :=
  let z := u32TrailingZeros ((s.counter + 1) % 2 ^ 32)
  if h : z < PINK_NOISE_ROWS then some ⟨z, h⟩ else none

/-- The extra always-fresh white draw consumed by the upcoming call to
next(): it follows the row draw when a row is updated on that tick. -/
def PinkNoise.freshWhite (s : PinkNoise) : ℚ :=
  if u32TrailingZeros ((s.counter + 1) % 2 ^ 32) < PINK_NOISE_ROWS then
    s.rng.stream (s.rng.pos + 1)
  else
    s.rng.stream s.rng.pos

/-- How many of the first n ticks of next(), starting from new(), rewrite
row k. -/
def pinkRowUpdateCount (stream : ℕ → ℚ) (k : Fin PINK_NOISE_ROWS) (n : ℕ) : ℕ :=
  (List.range n).countP fun t => decide ((pinkState stream t).updateIndex = some k)

/-- f32::clamp(lo, hi) on rationals, following the Rust branch structure. -/
def clampQ (x lo hi : ℚ) : ℚ :=
  if x < lo then lo else if hi < x then hi else x

/-- BrownNoise generator state (src/main.rs, struct BrownNoise). -/
structure BrownNoise where
  rng : StdRngQ
  integrator : ℚ
  output : ℚ

/-- Modelled from the spec: BrownNoise::next has an empty body in
src/main.rs (the spec notes the reference implementation is incomplete).
Spec 4.4: draw a uniform delta, add it to the integrator, clamp the
integrator to [-1, 1], and emit the integrator scaled down by a factor
(0.1 to 0.2; kept as a parameter because the spec fixes no constant). -/
def BrownNoise.next (scale : ℚ) (b : BrownNoise) : ℚ × BrownNoise :=
  let d := b.rng.genRange
  let integrator := clampQ (b.integrator + d.1) (-1) 1
  let output := integrator * scale
  (output, ⟨d.2, integrator, output⟩)

/-- Modelled from the spec: the sine source is rodio SineWave, external to
this repository. Spec 4.1: sample at step n is sin(2 pi f n / sample_rate)
with sample_rate 44100. -/
noncomputable def sineSample (f : ℝ) (n : ℕ) : ℝ :=
  Real.sin (2 * Real.pi * f * (n : ℝ) / 44100)

/-- SoundType enum from src/main.rs. -/
inductive SoundType where
  | SineWave
  | WhiteNoise
  | PinkNoise
  | BrownNoise

deriving instance DecidableEq for SoundType

/-- Description of the source handed to sink.append in AudioState::play:
which generator it is, the extra base amplify stage applied before
appending (1 when no amplify call is made), and whether it is wrapped in
repeat_infinite. -/
structure SourceDesc where
  kind : SoundType
  amplify : ℚ
  repeated : Bool

/-- The source each arm of the match in AudioState::play builds: only the
WhiteNoise arm inserts an amplify(0.3) stage. -/
def sourceFor : SoundType → SourceDesc
  | SoundType.SineWave => ⟨SoundType.SineWave, 1, true⟩
  | SoundType.WhiteNoise => ⟨SoundType.WhiteNoise, 3 / 10, true⟩
  | SoundType.PinkNoise => ⟨SoundType.PinkNoise, 1, true⟩
  | SoundType.BrownNoise => ⟨SoundType.BrownNoise, 1, true⟩

/-- Model of a rodio Sink as far as AudioState observes it: its volume,
the source appended to it, and whether play() was called on it. -/
structure Sink where
  volume : ℚ
  source : SourceDesc
  playing : Bool

/-- AudioState from src/main.rs; the OutputStream field is modelled by
whether a stream has been acquired. -/
structure AudioState where
  sink : Option Sink
  stream : Bool
  is_playing : Bool
  sound_type : SoundType
  volume : ℚ

/-- AudioState::new. -/
def AudioState.new : AudioState :=
  ⟨none, false, false, SoundType.SineWave, 1 / 2⟩

/-- AudioState::initialize_audio: open the default output stream when none
is held yet; devOk models whether open_default_stream succeeds. -/
def init_audio (devOk : Bool) (s : AudioState) : Except Unit AudioState :=
  if s.stream then Except.ok s
  else if devOk then Except.ok { s with stream := true }
  else Except.error ()

/-- AudioState::set_sound_type. -/
def AudioState.set_sound_type (s : AudioState) (t : SoundType) : AudioState :=
  { s with sound_type := t }

/-- AudioState::set_volume: clamp to [0, 1], store, and apply to the sink
when one exists. -/
def AudioState.set_volume (s : AudioState) (v : ℚ) : AudioState :=
  { s with
    volume := clampQ v 0 1
    sink := s.sink.map fun sk => { sk with volume := clampQ v 0 1 } }

/-- AudioState::play: acquire the stream if needed, return Ok at once when
already playing, otherwise build a sink at the current volume, append the
source selected by sound_type and mark the state as playing. -/
def AudioState.play (devOk : Bool) (s : AudioState) : Except Unit AudioState :=
  match init_audio devOk s with
  | Except.error e => Except.error e
  | Except.ok s1 =>
    if s1.is_playing then Except.ok s1
    else if s1.stream then
      Except.ok { s1 with
        sink := some ⟨s1.volume, sourceFor s1.sound_type, true⟩
        is_playing := true }
    else Except.ok s1

/-- AudioState::stop: self.sink.take() releases the sink when present and
clears is_playing; a no-op when no sink exists. -/
def AudioState.stop (s : AudioState) : AudioState :=
  match s.sink with
  | some _ => { s with sink := none, is_playing := false }
  | none => s

/-- States of the audio controller that the program can actually reach
through its public operations. -/
inductive Reachable : AudioState → Prop where
  | new : Reachable AudioState.new
  | play (devOk : Bool) (s s1 : AudioState) :
      Reachable s → AudioState.play devOk s = Except.ok s1 → Reachable s1
  | stop (s : AudioState) : Reachable s → Reachable s.stop
  | set_volume (s : AudioState) (v : ℚ) : Reachable s → Reachable (s.set_volume v)
  | set_sound_type (s : AudioState) (t : SoundType) :
      Reachable s → Reachable (s.set_sound_type t)

/-- The implicit is_playing / sink coupling of AudioState. -/
def playingInvariant (s : AudioState) : Prop :=
  s.is_playing = true ↔ s.sink.isSome = true

/-- Pink noise state whose counter is about to wrap to 0. -/
def pinkWrapState : PinkNoise :=
  ⟨⟨fun _ => 0, 0⟩, fun _ => 0, 0, 2 ^ 32 - 1⟩

/-- The state reached from AudioState.new by a successful play. -/
def playingAudioState : AudioState :=
  ⟨some ⟨1 / 2, sourceFor SoundType.SineWave, true⟩, true, true, SoundType.SineWave, 1 / 2⟩

/-- A stopped state with white noise selected. -/
def whiteStartState : AudioState :=
  ⟨none, false, false, SoundType.WhiteNoise, 1 / 2⟩

/-- The state reached from whiteStartState by a successful play. -/
def whitePlayingState : AudioState :=
  ⟨some ⟨1 / 2, sourceFor SoundType.WhiteNoise, true⟩, true, true, SoundType.WhiteNoise, 1 / 2⟩

/-! Helper lemmas about trailing zeros and counting. -/

lemma tzAux_eq_iff (k : ℕ) : ∀ (fuel n : ℕ), 0 < n → n < 2 ^ fuel →
    (tzAux fuel n = k ↔ n % 2 ^ (k + 1) = 2 ^ k) := by
  induction k with
  | zero =>
    intro fuel n hn hlt
    cases fuel with
    | zero => simp [pow_zero] at hlt; omega
    | succ fuel =>
      simp only [tzAux]
      by_cases h : n % 2 = 1
      · rw [if_pos h, pow_one, pow_zero]
        simp [h]
      · rw [if_neg h, pow_one, pow_zero]
        constructor
        · intro hh; omega
        · intro hh; omega
  | succ k ih =>
    intro fuel n hn hlt
    cases fuel with
    | zero => simp [pow_zero] at hlt; omega
    | succ fuel =>
      simp only [tzAux]
      by_cases h : n % 2 = 1
      · rw [if_pos h]
        constructor
        · intro hh; omega
        · intro hh
          have h2 : (2 : ℕ) ∣ 2 ^ (k + 1 + 1) := dvd_pow_self 2 (by omega)
          have h3 := Nat.mod_mod_of_dvd n h2
          rw [hh] at h3
          have h4 : (2 : ℕ) ∣ 2 ^ (k + 1) := dvd_pow_self 2 (by omega)
          omega
      · rw [if_neg h]
        have hn2 : 0 < n / 2 := by omega
        have hlt2 : n / 2 < 2 ^ fuel := by
          have hp : (2 : ℕ) ^ (fuel + 1) = 2 * 2 ^ fuel := by ring
          omega
        have ihh := ih fuel (n / 2) hn2 hlt2
        have hsplit : n = 2 * (n / 2) := by omega
        have hp : (2 : ℕ) ^ (k + 1 + 1) = 2 * 2 ^ (k + 1) := by ring
        have h7 : n % 2 ^ (k + 1 + 1) = 2 * (n / 2 % 2 ^ (k + 1)) := by
          rw [hp]
          conv_lhs => rw [hsplit]
          exact Nat.mul_mod_mul_left 2 (n / 2) (2 ^ (k + 1))
        constructor
        · intro hh
          have h5 : tzAux fuel (n / 2) = k := by omega
          have h6 := ihh.mp h5
          rw [h7, h6]; ring
        · intro hh
          rw [h7] at hh
          have hq : (2 : ℕ) ^ (k + 1) = 2 * 2 ^ k := by ring
          have h8 : n / 2 % 2 ^ (k + 1) = 2 ^ k := by omega
          have h9 := ihh.mpr h8
          omega

lemma u32TrailingZeros_eq_iff (n k : ℕ) (h0 : 0 < n) (h1 : n < 2 ^ 32) :
    u32TrailingZeros n = k ↔ n % 2 ^ (k + 1) = 2 ^ k := by
  unfold u32TrailingZeros
  rw [if_neg (by omega)]
  exact tzAux_eq_iff k 32 n h0 h1

lemma dvd_add_sub_iff (d r m : ℕ) (h0 : 0 < r) (h1 : r < d) :
    d ∣ (m + (d - r)) ↔ m % d = r := by
  have hd : 0 < d := by omega
  rw [Nat.dvd_iff_mod_eq_zero, Nat.add_mod]
  have hdr : (d - r) % d = d - r := Nat.mod_eq_of_lt (by omega)
  rw [hdr]
  have halt : m % d < d := Nat.mod_lt _ hd
  rcases Nat.lt_or_ge (m % d + (d - r)) d with h | h
  · rw [Nat.mod_eq_of_lt h]
    omega
  · rw [Nat.mod_eq_sub_mod h, Nat.mod_eq_of_lt (by omega)]
    omega

lemma countP_congr_list {α : Type} (p q : α → Bool) :
    ∀ l : List α, (∀ a, a ∈ l → p a = q a) → l.countP p = l.countP q := by
  intro l
  induction l with
  | nil => intro _; rfl
  | cons a l ih =>
    intro h
    rw [List.countP_cons, List.countP_cons, h a (by simp),
      ih fun b hb => h b (by simp [hb])]

lemma countP_range_mod (d r : ℕ) (h0 : 0 < r) (h1 : r < d) (n : ℕ) :
    (List.range n).countP (fun t => decide ((t + 1) % d = r)) = (n + (d - r)) / d := by
  induction n with
  | zero =>
    simp only [List.range_zero, List.countP_nil, Nat.zero_add]
    exact (Nat.div_eq_of_lt (by omega)).symm
  | succ n ih =>
    rw [List.range_succ, List.countP_append, ih]
    have hcp : List.countP (fun t => decide ((t + 1) % d = r)) [n]
        = if (n + 1) % d = r then 1 else 0 := by
      simp [List.countP_cons]
    rw [hcp, show n + 1 + (d - r) = n + (d - r) + 1 from by omega, Nat.succ_div]
    have hdvd : (d ∣ n + (d - r) + 1) ↔ (n + 1) % d = r := by
      rw [show n + (d - r) + 1 = n + 1 + (d - r) from by omega]
      exact dvd_add_sub_iff d r (n + 1) h0 h1
    simp only [hdvd]

/-! Structural lemmas about PinkNoise.next and the iterated state. -/

lemma sum_update_fin (f : Fin PINK_NOISE_ROWS → ℚ) (j : Fin PINK_NOISE_ROWS) (v : ℚ) :
    ∑ i, Function.update f j v i = (∑ i, f i) - f j + v := by
  rw [Finset.sum_update_of_mem (Finset.mem_univ j)]
  rw [show (Finset.univ \ {j} : Finset (Fin PINK_NOISE_ROWS)) = Finset.univ.erase j from by
    rw [Finset.sdiff_singleton_eq_erase]]
  rw [Finset.sum_erase_eq_sub (Finset.mem_univ j)]
  ring

lemma PinkNoise.next_running_sum (s : PinkNoise) (h : s.running_sum = ∑ i, s.rows i) :
    (s.next).2.running_sum = ∑ i, (s.next).2.rows i := by
  simp only [PinkNoise.next, StdRngQ.genRange]
  split
  · simp only
    rw [sum_update_fin, h]
  · exact h

lemma PinkNoise.next_stream (s : PinkNoise) : (s.next).2.rng.stream = s.rng.stream := by
  simp only [PinkNoise.next, StdRngQ.genRange]
  split <;> rfl

lemma PinkNoise.next_counter (s : PinkNoise) :
    (s.next).2.counter = (s.counter + 1) % 2 ^ 32 := by
  simp only [PinkNoise.next, StdRngQ.genRange]
  split <;> rfl

lemma PinkNoise.next_rows_bounded (s : PinkNoise) (hr : ∀ i, |s.rows i| ≤ 1)
    (hs : ∀ i, |s.rng.stream i| ≤ 1) : ∀ i, |(s.next).2.rows i| ≤ 1 := by
  intro i
  simp only [PinkNoise.next, StdRngQ.genRange]
  split
  · simp only
    rw [Function.update_apply]
    split
    · exact hs _
    · exact hr i
  · exact hr i

lemma pinkState_stream (stream : ℕ → ℚ) (n : ℕ) :
    (pinkState stream n).rng.stream = stream := by
  induction n with
  | zero => rfl
  | succ n ih => rw [pinkState, PinkNoise.next_stream, ih]

lemma pinkState_counter (stream : ℕ → ℚ) (n : ℕ) :
    (pinkState stream n).counter = n % 2 ^ 32 := by
  have e32 : (2 : ℕ) ^ 32 = 4294967296 := by norm_num
  induction n with
  | zero => rfl
  | succ n ih =>
    rw [pinkState, PinkNoise.next_counter, ih]
    omega

lemma pinkState_running_sum (stream : ℕ → ℚ) (n : ℕ) :
    (pinkState stream n).running_sum = ∑ i, (pinkState stream n).rows i := by
  induction n with
  | zero => rfl
  | succ n ih => exact PinkNoise.next_running_sum _ ih

lemma pinkState_rows_bounded (stream : ℕ → ℚ) (h : ∀ i, |stream i| ≤ 1) (n : ℕ) :
    ∀ i, |(pinkState stream n).rows i| ≤ 1 := by
  induction n with
  | zero => intro i; exact h _
  | succ n ih =>
    exact PinkNoise.next_rows_bounded _ ih (by rw [pinkState_stream]; exact fun i => h i)

lemma pinkState_sum_bounded (stream : ℕ → ℚ) (h : ∀ i, |stream i| ≤ 1) (n : ℕ) :
    |(pinkState stream n).running_sum| ≤ 16 := by
  rw [pinkState_running_sum]
  calc |∑ i, (pinkState stream n).rows i| ≤ ∑ i, |(pinkState stream n).rows i| :=
        Finset.abs_sum_le_sum_abs _ _
    _ ≤ ∑ _i : Fin PINK_NOISE_ROWS, (1 : ℚ) :=
        Finset.sum_le_sum fun i _ => pinkState_rows_bounded stream h n i
    _ = 16 := by simp

lemma PinkNoise.next_fst (s : PinkNoise) :
    (s.next).1 = ((s.next).2.running_sum + s.freshWhite) / ((PINK_NOISE_ROWS : ℚ) + 1) := by
  simp only [PinkNoise.next, PinkNoise.freshWhite, StdRngQ.genRange]
  by_cases h : u32TrailingZeros ((s.counter + 1) % 2 ^ 32) < PINK_NOISE_ROWS
  · rw [dif_pos h, if_pos h]
  · rw [dif_neg h, if_neg h]

lemma PinkNoise.freshWhite_bounded (s : PinkNoise) (h : ∀ i, |s.rng.stream i| ≤ 1) :
    |s.freshWhite| ≤ 1 := by
  unfold PinkNoise.freshWhite
  split
  · exact h _
  · exact h _

lemma updateIndex_eq_some_iff (s : PinkNoise) (k : Fin PINK_NOISE_ROWS) :
    s.updateIndex = some k ↔
      u32TrailingZeros ((s.counter + 1) % 2 ^ 32) = (k : ℕ) := by
  unfold PinkNoise.updateIndex
  by_cases h : u32TrailingZeros ((s.counter + 1) % 2 ^ 32) < PINK_NOISE_ROWS
  · rw [dif_pos h]
    simp [Fin.ext_iff]
  · rw [dif_neg h]
    have hk := k.isLt
    constructor
    · intro h0; exact absurd h0 (by simp)
    · intro h0; exact absurd (show u32TrailingZeros ((s.counter + 1) % 2 ^ 32)
        < PINK_NOISE_ROWS from by omega) h

lemma updateIndex_char (stream : ℕ → ℚ) (k : Fin PINK_NOISE_ROWS) (t : ℕ)
    (ht : t + 1 < 2 ^ 32) :
    (pinkState stream t).updateIndex = some k ↔
      (t + 1) % 2 ^ ((k : ℕ) + 1) = 2 ^ (k : ℕ) := by
  have e32 : (2 : ℕ) ^ 32 = 4294967296 := by norm_num
  rw [updateIndex_eq_some_iff, pinkState_counter]
  rw [show (t % 2 ^ 32 + 1) % 2 ^ 32 = t + 1 from by omega]
  exact u32TrailingZeros_eq_iff (t + 1) k (by omega) ht

lemma pinkRowUpdateCount_eq (stream : ℕ → ℚ) (k : Fin PINK_NOISE_ROWS) (n : ℕ)
    (hn : n ≤ 2 ^ 32) :
    pinkRowUpdateCount stream k n = (n + 2 ^ (k : ℕ)) / 2 ^ ((k : ℕ) + 1) := by
  have e32 : (2 : ℕ) ^ 32 = 4294967296 := by norm_num
  have hk := k.isLt
  have h2k : 0 < 2 ^ (k : ℕ) := Nat.pos_pow_of_pos _ (by norm_num)
  have hq : (2 : ℕ) ^ ((k : ℕ) + 1) = 2 * 2 ^ (k : ℕ) := by ring
  have hlt : 2 ^ (k : ℕ) < 2 ^ ((k : ℕ) + 1) := by omega
  unfold pinkRowUpdateCount
  rw [countP_congr_list _ (fun t => decide ((t + 1) % 2 ^ ((k : ℕ) + 1) = 2 ^ (k : ℕ))) _ ?_]
  · rw [countP_range_mod _ _ h2k hlt n,
      show 2 ^ ((k : ℕ) + 1) - 2 ^ (k : ℕ) = 2 ^ (k : ℕ) from by omega]
  · intro t htl
    have htn : t < n := List.mem_range.mp htl
    by_cases hw : t + 1 < 2 ^ 32
    · exact decide_eq_decide.mpr (updateIndex_char stream k t hw)
    · have ht1 : t + 1 = 2 ^ 32 := by omega
      have hL : (pinkState stream t).updateIndex = none := by
        unfold PinkNoise.updateIndex
        rw [pinkState_counter,
          show (t % 2 ^ 32 + 1) % 2 ^ 32 = 0 from by omega,
          show u32TrailingZeros 0 = 32 from rfl]
        rw [dif_neg (by norm_num)]
      have hk16 : (k : ℕ) < 16 := hk
      have hR : ¬ (t + 1) % 2 ^ ((k : ℕ) + 1) = 2 ^ (k : ℕ) := by
        rw [ht1]
        have hdvd : 2 ^ ((k : ℕ) + 1) ∣ 2 ^ 32 := pow_dvd_pow 2 (by omega)
        have h0 : 2 ^ 32 % 2 ^ ((k : ℕ) + 1) = 0 :=
          Nat.dvd_iff_mod_eq_zero.mp hdvd
        omega
      apply decide_eq_decide.mpr
      constructor
      · intro h0; rw [hL] at h0; exact absurd h0 (by simp)
      · intro h0; exact absurd h0 hR

/-! Helper lemmas about AudioState. -/

lemma play_spec (devOk : Bool) (s s1 : AudioState)
    (h : AudioState.play devOk s = Except.ok s1) :
    (s.is_playing = true ∧ s1 = { s with stream := true }) ∨
      (s.is_playing = false ∧
        s1 = { s with
          stream := true
          sink := some ⟨s.volume, sourceFor s.sound_type, true⟩
          is_playing := true }) := by
  obtain ⟨sk, st, pl, ty, vol⟩ := s
  unfold AudioState.play init_audio at h
  cases st <;> cases devOk <;> cases pl <;> simp_all

lemma reachable_playing_stream (s : AudioState) (h : Reachable s) :
    s.is_playing = true → s.stream = true := by
  induction h with
  | new => intro hp; simp [AudioState.new] at hp
  | play devOk s s1 hr heq ih =>
    intro hp
    rcases play_spec devOk s s1 heq with ⟨h1, h2⟩ | ⟨h1, h2⟩ <;> subst h2 <;> rfl
  | stop s hr ih =>
    intro hp
    cases hs : s.sink with
    | none => simp only [AudioState.stop, hs] at hp ⊢; exact ih hp
    | some sk => simp [AudioState.stop, hs] at hp
  | set_volume s v hr ih => exact ih
  | set_sound_type s t hr ih => exact ih

lemma clampQ_bounds (x lo hi : ℚ) (h : lo ≤ hi) :
    lo ≤ clampQ x lo hi ∧ clampQ x lo hi ≤ hi := by
  unfold clampQ
  split_ifs <;> constructor <;> linarith

/-- C2: after any number of calls to next() starting from PinkNoise::new,
the maintained running_sum equals the exact sum of the 16 row values. -/
theorem pink_running_sum_invariant (stream : ℕ → ℚ) (n : ℕ) :
    (pinkState stream n).running_sum
      = ∑ i : Fin PINK_NOISE_ROWS, (pinkState stream n).rows i :=
  pinkState_running_sum stream n

/-- C5: every sample emitted by PinkNoise::next equals
(running_sum + w) / 17 where running_sum is the post-update running sum
and w is the extra fresh uniform draw of that tick (the last value the rng
produced during the call). -/
theorem pink_sample_formula (s : PinkNoise) :
    (s.next).1 = ((s.next).2.running_sum + s.freshWhite) / ((PINK_NOISE_ROWS : ℚ) + 1)
      ∧ s.freshWhite = s.rng.stream ((s.next).2.rng.pos - 1) := by
  refine ⟨PinkNoise.next_fst s, ?_⟩
  simp only [PinkNoise.next, PinkNoise.freshWhite, StdRngQ.genRange]
  by_cases h : u32TrailingZeros ((s.counter + 1) % 2 ^ 32) < PINK_NOISE_ROWS
  · rw [dif_pos h, if_pos h]
    simp
  · rw [dif_neg h, if_neg h]
    simp

/-- C4: PinkNoise::next never writes outside the row array: whenever the
trailing-zero count of the incremented counter is at least
PINK_NOISE_ROWS the rows are untouched, in particular on the tick where
the counter wraps to exactly zero (trailing zeros = 32), and any row that
changes has index equal to the trailing-zero count (hence below 16). -/
theorem pink_wraparound_safe (s : PinkNoise) :
    (PINK_NOISE_ROWS ≤ u32TrailingZeros ((s.counter + 1) % 2 ^ 32) →
        (s.next).2.rows = s.rows)
      ∧ ((s.counter + 1) % 2 ^ 32 = 0 →
        u32TrailingZeros ((s.counter + 1) % 2 ^ 32) = 32 ∧ (s.next).2.rows = s.rows)
      ∧ (∀ i : Fin PINK_NOISE_ROWS, (s.next).2.rows i ≠ s.rows i →
        u32TrailingZeros ((s.counter + 1) % 2 ^ 32) = (i : ℕ)) := by
  have hnu : ∀ _hge : ¬ u32TrailingZeros ((s.counter + 1) % 2 ^ 32) < PINK_NOISE_ROWS,
      (s.next).2.rows = s.rows := by
    intro hge
    simp only [PinkNoise.next, StdRngQ.genRange]
    rw [dif_neg hge]
  refine ⟨fun h => hnu (by omega), ?_, ?_⟩
  · intro h0
    have hz : u32TrailingZeros ((s.counter + 1) % 2 ^ 32) = 32 := by rw [h0]; decide
    exact ⟨hz, hnu (by rw [hz]; decide)⟩
  · intro i hne
    by_cases h : u32TrailingZeros ((s.counter + 1) % 2 ^ 32) < PINK_NOISE_ROWS
    · simp only [PinkNoise.next, StdRngQ.genRange] at hne
      rw [dif_pos h] at hne
      simp only at hne
      by_cases hij :
          i = (⟨u32TrailingZeros ((s.counter + 1) % 2 ^ 32), h⟩ : Fin PINK_NOISE_ROWS)
      · rw [hij]
      · rw [Function.update_apply, if_neg hij] at hne
        exact absurd rfl hne
    · rw [hnu h] at hne
      exact absurd rfl hne

/-- C3: every sample of WhiteNoise, PinkNoise, BrownNoise (modelled from
the spec) and the sine source (modelled from the spec) lies in [-1, 1];
for the noise generators this is under the assumption that every uniform
draw lies in [-1, 1], and for brown noise for any scale factor in [0, 1]. -/
theorem generator_samples_bounded :
    (∀ (stream : ℕ → ℚ) (pos : ℕ), (∀ i, |stream i| ≤ 1) →
        |(WhiteNoise.next ⟨⟨stream, pos⟩⟩).1| ≤ 1)
      ∧ (∀ (stream : ℕ → ℚ) (n : ℕ), (∀ i, |stream i| ≤ 1) →
        |pinkSample stream n| ≤ 1)
      ∧ (∀ (scale : ℚ) (b : BrownNoise), 0 ≤ scale → scale ≤ 1 →
        |(BrownNoise.next scale b).1| ≤ 1)
      ∧ (∀ (f : ℝ) (n : ℕ), |sineSample f n| ≤ 1) := by
  refine ⟨?_, ?_, ?_, ?_⟩
  · intro stream pos h
    exact h pos
  · intro stream n h
    unfold pinkSample
    rw [PinkNoise.next_fst]
    have hrs : |((pinkState stream n).next).2.running_sum| ≤ 16 :=
      pinkState_sum_bounded stream h (n + 1)
    have hfw : |(pinkState stream n).freshWhite| ≤ 1 :=
      PinkNoise.freshWhite_bounded _ (by rw [pinkState_stream]; exact h)
    rw [abs_div, show |((PINK_NOISE_ROWS : ℚ) + 1)| = 17 from by norm_num [PINK_NOISE_ROWS],
      div_le_one (by norm_num)]
    calc |((pinkState stream n).next).2.running_sum + (pinkState stream n).freshWhite|
        ≤ |((pinkState stream n).next).2.running_sum|
            + |(pinkState stream n).freshWhite| := abs_add _ _
      _ ≤ 16 + 1 := add_le_add hrs hfw
      _ = 17 := by norm_num
  · intro scale b h0 h1
    simp only [BrownNoise.next, StdRngQ.genRange]
    have hcb := clampQ_bounds (b.integrator + b.rng.stream b.rng.pos) (-1) 1 (by norm_num)
    have h2 : |clampQ (b.integrator + b.rng.stream b.rng.pos) (-1) 1| ≤ 1 := abs_le.mpr hcb
    have h3 : |scale| ≤ 1 := abs_le.mpr ⟨by linarith, h1⟩
    rw [abs_mul]
    exact le_trans (mul_le_mul h2 h3 (abs_nonneg _) (by norm_num)) (by norm_num)
  · intro f n
    exact abs_le.mpr ⟨Real.neg_one_le_sin _, Real.sin_le_one _⟩

/-- Witness for C3 at the all-zero draw stream, scale 0. -/
theorem generator_samples_bounded_witness :
    |(WhiteNoise.next ⟨⟨fun _ => 0, 0⟩⟩).1| ≤ 1
      ∧ |pinkSample (fun _ => 0) 0| ≤ 1
      ∧ |(BrownNoise.next 0 ⟨⟨fun _ => 0, 0⟩, 0, 0⟩).1| ≤ 1 :=
  ⟨generator_samples_bounded.1 (fun _ => 0) 0 fun _ => by simp,
    generator_samples_bounded.2.1 (fun _ => 0) 0 fun _ => by simp,
    generator_samples_bounded.2.2.1 0 ⟨⟨fun _ => 0, 0⟩, 0, 0⟩ le_rfl zero_le_one⟩

/-- Witness for C4 at the state whose counter is 2 ^ 32 - 1: the wrapped
counter is 0, its trailing-zero count is 32 and no row is rewritten. -/
theorem pink_wraparound_safe_witness :
    u32TrailingZeros ((pinkWrapState.counter + 1) % 2 ^ 32) = 32
      ∧ (pinkWrapState.next).2.rows = pinkWrapState.rows :=
  (pink_wraparound_safe pinkWrapState).2.1 (by decide)

/-- C1 (amended): row k of PinkNoise is rewritten exactly every 2 ^ (k+1)
ticks of next(), not every 2 ^ k ticks: the tick numbered t (counting from
1) rewrites row k iff t is congruent to 2 ^ k modulo 2 ^ (k+1), the number
of rewrites of row k over the first n ticks is (n + 2 ^ k) / 2 ^ (k+1),
and over 65536 ticks row 0 is rewritten 32768 times and row 4 is
rewritten 2048 times. The first conjunct grounds updateIndex in next():
the row it names is exactly the one next() rewrites. -/
theorem pink_row_update_schedule :
    (∀ (s : PinkNoise) (j : Fin PINK_NOISE_ROWS),
        (s.updateIndex = some j →
          (s.next).2.rows = Function.update s.rows j (s.rng.stream s.rng.pos))
        ∧ (s.updateIndex = none → (s.next).2.rows = s.rows))
      ∧ (∀ (stream : ℕ → ℚ) (k : Fin PINK_NOISE_ROWS) (t : ℕ), t + 1 < 2 ^ 32 →
        ((pinkState stream t).updateIndex = some k ↔
          (t + 1) % 2 ^ ((k : ℕ) + 1) = 2 ^ (k : ℕ)))
      ∧ (∀ (stream : ℕ → ℚ) (k : Fin PINK_NOISE_ROWS) (n : ℕ), n ≤ 2 ^ 32 →
        pinkRowUpdateCount stream k n = (n + 2 ^ (k : ℕ)) / 2 ^ ((k : ℕ) + 1))
      ∧ (∀ stream : ℕ → ℚ,
        pinkRowUpdateCount stream ⟨0, by norm_num⟩ 65536 = 32768
          ∧ pinkRowUpdateCount stream ⟨4, by norm_num⟩ 65536 = 2048) := by
  refine ⟨?_, updateIndex_char, pinkRowUpdateCount_eq, ?_⟩
  · intro s j
    constructor
    · intro hj
      by_cases h : u32TrailingZeros ((s.counter + 1) % 2 ^ 32) < PINK_NOISE_ROWS
      · unfold PinkNoise.updateIndex at hj
        rw [dif_pos h] at hj
        have hz := Option.some.inj hj
        simp only [PinkNoise.next, StdRngQ.genRange]
        rw [dif_pos h, hz]
      · unfold PinkNoise.updateIndex at hj
        rw [dif_neg h] at hj
        exact absurd hj (by simp)
    · intro hnone
      by_cases h : u32TrailingZeros ((s.counter + 1) % 2 ^ 32) < PINK_NOISE_ROWS
      · unfold PinkNoise.updateIndex at hnone
        rw [dif_pos h] at hnone
        exact absurd hnone (by simp)
      · simp only [PinkNoise.next, StdRngQ.genRange]
        rw [dif_neg h]
  · intro stream
    constructor
    · have h := pinkRowUpdateCount_eq stream ⟨0, by norm_num⟩ 65536 (by norm_num)
      rw [h]
      show (65536 + 2 ^ 0) / 2 ^ (0 + 1) = 32768
      norm_num
    · have h := pinkRowUpdateCount_eq stream ⟨4, by norm_num⟩ 65536 (by norm_num)
      rw [h]
      show (65536 + 2 ^ 4) / 2 ^ (4 + 1) = 2048
      norm_num

/-- Witness for C1 at the all-zero draw stream over 2 ticks. -/
theorem pink_row_update_schedule_witness :
    (2 : ℕ) ≤ 2 ^ 32
      ∧ pinkRowUpdateCount (fun _ => 0) ⟨0, by norm_num⟩ 2 = (2 + 2 ^ 0) / 2 ^ 1 :=
  ⟨by norm_num,
    pink_row_update_schedule.2.2.1 (fun _ => 0) ⟨0, by norm_num⟩ 2 (by norm_num)⟩

/-- C1 counterexample: the claim says row 0 is updated on every tick, but
over the first 2 ticks from PinkNoise::new row 0 is rewritten only once
(tick 1 has counter 1 with 0 trailing zeros, tick 2 has counter 2 with 1
trailing zero). -/
theorem pink_row_update_count_counterexample :
    pinkRowUpdateCount (fun _ => 0) ⟨0, by norm_num⟩ 2 = 1
      ∧ pinkRowUpdateCount (fun _ => 0) ⟨0, by norm_num⟩ 2 ≠ 2 := by
  have h : pinkRowUpdateCount (fun _ => 0) ⟨0, by norm_num⟩ 2 = (2 + 2 ^ 0) / 2 ^ (0 + 1) :=
    pinkRowUpdateCount_eq (fun _ => 0) ⟨0, by norm_num⟩ 2 (by norm_num)
  have h1 : pinkRowUpdateCount (fun _ => 0) ⟨0, by norm_num⟩ 2 = 1 := by rw [h]; norm_num
  exact ⟨h1, by rw [h1]; norm_num⟩

/-- C6: AudioState::set_volume clamps its argument to [0, 1] before
storing it (so -1 gives gain 0 and 2 gives gain 1), applies the clamped
gain to a sink that is already in progress, and any sink created by a
later play carries the stored clamped gain. -/
theorem set_volume_clamps (s : AudioState) (v : ℚ) :
    ((v ≤ 0 → (s.set_volume v).volume = 0)
        ∧ (1 ≤ v → (s.set_volume v).volume = 1)
        ∧ (0 ≤ v → v ≤ 1 → (s.set_volume v).volume = v))
      ∧ (s.set_volume (-1)).volume = 0
      ∧ (s.set_volume 2).volume = 1
      ∧ (∀ sk, s.sink = some sk →
        (s.set_volume v).sink = some { sk with volume := (s.set_volume v).volume })
      ∧ (∀ (devOk : Bool) (s1 : AudioState),
        AudioState.play devOk (s.set_volume v) = Except.ok s1 →
        ∀ sk, s1.sink = some sk → sk.volume = (s.set_volume v).volume) := by
  refine ⟨⟨?_, ?_, ?_⟩, ?_, ?_, ?_, ?_⟩
  · intro h
    simp only [AudioState.set_volume, clampQ]
    split_ifs <;> linarith
  · intro h
    simp only [AudioState.set_volume, clampQ]
    split_ifs <;> linarith
  · intro h0 h1
    simp only [AudioState.set_volume, clampQ]
    split_ifs <;> linarith
  · simp only [AudioState.set_volume, clampQ]
    norm_num
  · simp only [AudioState.set_volume, clampQ]
    norm_num
  · intro sk hsk
    simp [AudioState.set_volume, hsk]
  · intro devOk s1 heq sk hsk
    rcases play_spec devOk (s.set_volume v) s1 heq with ⟨hp, h1⟩ | ⟨hp, h1⟩ <;> subst h1
    · cases hs : s.sink with
      | none => simp [AudioState.set_volume, hs] at hsk
      | some k =>
        simp only [AudioState.set_volume, hs, Option.map_some] at hsk ⊢
        have := Option.some.inj hsk
        rw [← this]
    · have := Option.some.inj hsk
      rw [← this]

/-- Witness for C6: setting volume 2 on an in-progress state stores gain 1
and applies it to the live sink. -/
theorem set_volume_clamps_witness :
    (AudioState.set_volume playingAudioState 2).volume = 1
      ∧ (AudioState.set_volume playingAudioState 2).sink
        = some { volume := (AudioState.set_volume playingAudioState 2).volume,
                 source := sourceFor SoundType.SineWave, playing := true } :=
  ⟨(set_volume_clamps playingAudioState 2).2.2.1,
    (set_volume_clamps playingAudioState 2).2.2.2.1
      ⟨1 / 2, sourceFor SoundType.SineWave, true⟩ rfl⟩

/-- C7: calling play while is_playing is already true, from any reachable
state, returns Ok and leaves the state unchanged: no second sink is
created and the gain is not applied twice. -/
theorem play_idempotent (devOk : Bool) (s : AudioState) (hr : Reachable s)
    (hp : s.is_playing = true) :
    AudioState.play devOk s = Except.ok s := by
  have hs := reachable_playing_stream s hr hp
  simp [AudioState.play, init_audio, hs, hp]

/-- Witness for C7: replaying the state reached by a successful play. -/
theorem play_idempotent_witness :
    AudioState.play true playingAudioState = Except.ok playingAudioState :=
  play_idempotent true playingAudioState
    (Reachable.play true AudioState.new playingAudioState Reachable.new rfl) rfl

/-- C8: AudioState::stop always succeeds (it is a total function back into
AudioState): when a sink exists it is released and is_playing becomes
false, when none exists the state is returned unchanged, and stop after
stop changes nothing. -/
theorem stop_idempotent (s : AudioState) :
    (∀ sk, s.sink = some sk → (s.stop).sink = none ∧ (s.stop).is_playing = false)
      ∧ (s.sink = none → s.stop = s)
      ∧ (s.stop).stop = s.stop := by
  refine ⟨?_, ?_, ?_⟩
  · intro sk hs
    simp [AudioState.stop, hs]
  · intro hs
    simp [AudioState.stop, hs]
  · cases hs : s.sink <;> simp [AudioState.stop, hs]

/-- Witness for C8: stop on the freshly constructed (sink-free) state is a
no-op. -/
theorem stop_idempotent_witness : AudioState.stop AudioState.new = AudioState.new :=
  (stop_idempotent AudioState.new).2.1 rfl

/-- C9: in AudioState::play, only the WhiteNoise arm inserts a base
amplify stage, of exactly 0.3; the sink built by any successful play from
a stopped state carries the source built for the selected sound type. -/
theorem white_noise_base_gain :
    (sourceFor SoundType.WhiteNoise).amplify = 3 / 10
      ∧ (∀ t : SoundType, t ≠ SoundType.WhiteNoise → (sourceFor t).amplify = 1)
      ∧ (∀ (devOk : Bool) (s s1 : AudioState), s.is_playing = false →
        AudioState.play devOk s = Except.ok s1 →
        s1.sink = some ⟨s.volume, sourceFor s.sound_type, true⟩) := by
  refine ⟨rfl, ?_, ?_⟩
  · intro t ht
    cases t <;> first | rfl | exact absurd rfl ht
  · intro devOk s s1 hp heq
    rcases play_spec devOk s s1 heq with ⟨hp1, h1⟩ | ⟨hp1, h1⟩
    · rw [hp] at hp1; exact absurd hp1 (by simp)
    · subst h1; rfl

/-- Witness for C9: playing white noise from a stopped state yields a sink
whose source carries the 0.3 amplify stage; the sine source has none. -/
theorem white_noise_base_gain_witness :
    (sourceFor SoundType.SineWave).amplify = 1
      ∧ whitePlayingState.sink = some ⟨1 / 2, sourceFor SoundType.WhiteNoise, true⟩ :=
  ⟨white_noise_base_gain.2.1 SoundType.SineWave (by decide),
    white_noise_base_gain.2.2 true whiteStartState whitePlayingState rfl rfl⟩

/-- C10: is_playing is true exactly when a sink is held: this holds for
AudioState::new and is preserved by every successful play and by stop. -/
theorem playing_iff_sink :
    playingInvariant AudioState.new
      ∧ (∀ (devOk : Bool) (s s1 : AudioState), playingInvariant s →
        AudioState.play devOk s = Except.ok s1 → playingInvariant s1)
      ∧ (∀ s : AudioState, playingInvariant s → playingInvariant s.stop) := by
  refine ⟨by simp [playingInvariant, AudioState.new], ?_, ?_⟩
  · intro devOk s s1 hinv heq
    rcases play_spec devOk s s1 heq with ⟨hp, h1⟩ | ⟨hp, h1⟩ <;> subst h1
    · exact hinv
    · simp [playingInvariant]
  · intro s hinv
    cases hs : s.sink with
    | none =>
      simp only [AudioState.stop, hs]
      exact hinv
    | some sk =>
      simp [playingInvariant, AudioState.stop, hs]

/-- Witness for C10: the invariant transported along the concrete play
from AudioState.new. -/
theorem playing_iff_sink_witness : playingInvariant playingAudioState :=
  playing_iff_sink.2.1 true AudioState.new playingAudioState
    (by simp [playingInvariant, AudioState.new]) rfl
